import Mathlib

/-!
Verification development for the forecasting core of the Inventarios-pronostico
repository (backend/models.py and the ranking step of backend/app.py).

Modelling conventions:
* Python/numpy floats are modelled as exact rationals; a float NaN is `none`
  in `Option ℚ` (the type `NpFloat` below).  Inside the MAPE pipeline, where
  division by a zero actual produces an infinity, the three-valued type
  `NpVal` (finite / +inf / NaN) mirrors the numpy array contents.
* Python `round(x, 2)` is modelled as decimal round-half-to-even (`round2`).
* `np.sqrt` is the one genuinely irrational operation; it is modelled with
  `Real.sqrt` in the separate definitions `rmseRaw` / `rmseReported` so that
  the remaining metric fields stay computable.
* A raised-and-uncaught Python exception is an `Except.error`; a fitter's
  `return None` is `Option.none`.
* Library-backed fits (statsmodels / sklearn) are oracles passed as explicit
  function parameters; everything the repository itself computes (metric
  arithmetic, grid-search control flow, fallbacks, the ranking sort) is
  translated directly.
-/

section

attribute [local semireducible] Rat.mul Rat.add Rat.sub Rat.inv

/-- Floor of a rational, written on the raw numerator/denominator so that it
evaluates by kernel reduction (Mathlib's `⌊·⌋` instance does not). -/
def qfloor (x : ℚ) : ℤ := x.num / (x.den : ℤ)

theorem qfloor_eq_floor (x : ℚ) : qfloor x = ⌊x⌋ := Rat.floor_def.symm

/-- Fractional part of a rational. -/
def qfract (x : ℚ) : ℚ := x - (qfloor x : ℚ)

/-- Decimal round-half-to-even to an integer, as Python's `round` ties rule:
exact halves go to the even neighbour, everything else to the nearest. -/
def rheInt (x : ℚ) : ℤ :=
  if qfract x = 1/2 then (if qfloor x % 2 = 0 then qfloor x else qfloor x + 1)
  else qfloor (x + 1/2)

/-- Python `round(x, 2)`: round half to even at two decimal places. -/
def round2 (x : ℚ) : ℚ := (rheInt (x * 100) : ℚ) / 100

/-- A numpy float64 that is either a finite value or NaN. -/
abbrev NpFloat := Option ℚ

/-- Lift an all-finite series to numpy floats. -/
def toNp (l : List ℚ) : List NpFloat := l.map some

/-- mean of a list of rationals (`np.mean`); the empty case never arises on
the paths where this is used with a defined result. -/
def qmean (l : List ℚ) : ℚ := l.sum / (l.length : ℚ)

/-- A numpy intermediate value in the MAPE pipeline: finite, +infinity
(abs of division of a nonzero number by zero), or NaN (0/0). -/
inductive NpVal where
  | num (q : ℚ)
  | inf
  | nan
deriving DecidableEq

/-- `np.abs((a - p) / a)` for finite `a`, `p`: finite when `a ≠ 0`,
`0/0 = NaN` when both vanish, `+inf` otherwise. -/
def npAbsRatio (a p : ℚ) : NpVal :=
  if a = 0 then (if p = 0 then NpVal.nan else NpVal.inf)
  else NpVal.num |(a - p) / a|

/-- `np.mean` over the three-valued intermediates: NaN absorbs, otherwise a
single +inf forces +inf, otherwise the finite mean (NaN on empty input). -/
def npMeanVal (l : List NpVal) : NpVal :=
  if l.any (fun v => match v with | NpVal.nan => true | _ => false) then NpVal.nan
  else if l.any (fun v => match v with | NpVal.inf => true | _ => false) then NpVal.inf
  else match l with
    | [] => NpVal.nan
    | _ => NpVal.num (qmean (l.filterMap fun v =>
        match v with | NpVal.num q => some q | _ => none))

/-- The `{mae, mse, mape}` fields of the metrics dict; `rmse` is the one
irrational field and lives in `rmseRaw` / `rmseReported` below. -/
structure Metrics where
  mae : Option ℚ
  mse : Option ℚ
  mape : Option ℚ
deriving DecidableEq

/-- The pairs surviving `valid_mask = ~np.isnan(actual) & ~np.isnan(predicted)`. -/
def validPairs (actual predicted : List NpFloat) : List (ℚ × ℚ) :=
  (actual.zip predicted).filterMap fun ap =>
    match ap with
    | (some a, some p) => some (a, p)
    | _ => none

/-- `mean_squared_error` of the valid pairs, before rounding. -/
def mseRawOf (pairs : List (ℚ × ℚ)) : ℚ :=
  qmean (pairs.map fun ap => (ap.1 - ap.2) ^ 2)

/-- `mean_absolute_error` of the valid pairs, before rounding. -/
def maeRawOf (pairs : List (ℚ × ℚ)) : ℚ :=
  qmean (pairs.map fun ap => |ap.1 - ap.2|)

/-- The MAPE line: `np.mean(np.abs((a - p) / a)) * 100`, then an infinite
mean is replaced by NaN, then the defined case is rounded. -/
def mapeOf (pairs : List (ℚ × ℚ)) : Option ℚ :=
  match npMeanVal (pairs.map fun ap => npAbsRatio ap.1 ap.2) with
  | NpVal.num q => some (round2 (q * 100))
  | _ => none

/-- Body of `calculate_metrics` once the two arrays have equal length:
filter NaN pairs, return all-NaN metrics when nothing survives, otherwise
the rounded aggregates. -/
def metricsOf (actual predicted : List NpFloat) : Metrics :=
  let pairs := validPairs actual predicted
  if pairs.isEmpty then ⟨none, none, none⟩
  else ⟨some (round2 (maeRawOf pairs)), some (round2 (mseRawOf pairs)), mapeOf pairs⟩

/-- `calculate_metrics(actual, predicted)`.  With arrays of unequal length
the mask combination `~isnan(actual) & ~isnan(predicted)` fails to
broadcast (ValueError), or — when one side has length 1 so the mask does
broadcast — the boolean indexing `actual[valid_mask]` fails (IndexError);
either way the call raises, modelled as `Except.error`. -/
def calculate_metrics (actual predicted : List NpFloat) : Except String Metrics :=
  if actual.length = predicted.length then Except.ok (metricsOf actual predicted)
  else Except.error "shape mismatch in valid_mask broadcasting or boolean indexing"

/-- `rmse` before rounding: `np.sqrt(mse)` of the unrounded mse. -/
noncomputable def rmseRaw (actual predicted : List NpFloat) : ℝ :=
  Real.sqrt ((mseRawOf (validPairs actual predicted) : ℚ) : ℝ)

/-- Round-half-to-even to an integer, on the reals. -/
noncomputable def rheIntR (x : ℝ) : ℤ :=
  if Int.fract x = 1/2 then (if 2 ∣ ⌊x⌋ then ⌊x⌋ else ⌊x⌋ + 1) else round x

/-- `round(x, 2)` on the reals. -/
noncomputable def round2R (x : ℝ) : ℝ := (rheIntR (x * 100) : ℝ) / 100

/-- The reported `rmse` field: NaN when no valid pair survives, otherwise
the rounded square root of the unrounded mse. -/
noncomputable def rmseReported (actual predicted : List NpFloat) : Option ℝ :=
  if (validPairs actual predicted).isEmpty then none
  else some (round2R (rmseRaw actual predicted))

example : round2 (8/3) = 267/100 := by decide
example : round2 (5/2) = 5/2 := by decide
example : calculate_metrics (toNp [0, 10, 20]) (toNp [5, 11, 18]) =
    Except.ok ⟨some (267/100), some 10, none⟩ := rfl
example : calculate_metrics [some 1, none] [some 2, some 3] =
    Except.ok ⟨some 1, some 1, some 100⟩ := rfl

/-- In-sample SMA predictions for window `w`: NaN for `i < w`, otherwise
`np.mean(data[i-w:i])`. -/
def smaPredictions (data : List ℚ) (w : ℕ) : List NpFloat :=
  (List.range data.length).map fun i =>
    if i < w then none else some (qmean ((data.drop (i - w)).take w))

/-- The rounded MAPE that window `w` scores on `data`. -/
def smaMape (data : List ℚ) (w : ℕ) : Option ℚ :=
  (metricsOf (toNp data) (smaPredictions data w)).mape

/-- `q < best_mape` where `none` stands for the initial `float('inf')`. -/
def ltInf (q : ℚ) (best : Option ℚ) : Bool :=
  match best with
  | none => true
  | some b => decide (q < b)

/-- The grid-search loop body of `sma_model`: state is
`(best_mape, best_window, best_predictions)`; a window is adopted only on a
defined MAPE that strictly improves the incumbent. -/
def smaSearch (data : List ℚ) : List ℕ → Option ℚ × ℕ × List NpFloat →
    Option ℚ × ℕ × List NpFloat
  | [], st => st
  | w :: ws, (bm, bw, bp) =>
    match smaMape data w with
    | some q =>
      if ltInf q bm then smaSearch data ws (some q, w, smaPredictions data w)
      else smaSearch data ws (bm, bw, bp)
    | none => smaSearch data ws (bm, bw, bp)

/-- The candidate windows `range(3, 13)`. -/
def windowCandidates : List ℕ := List.range' 3 10

/-- Result dict of `sma_model` (the static name/description entries carry no
information and are omitted). -/
structure SMAResult where
  predictions : List NpFloat
  metrics : Metrics
  window : ℕ
deriving DecidableEq

/-- `sma_model(data, window=3)`: initial predictions with the default window,
grid search over 3..12, metrics recomputed on the winner; the surrounding
`try/except` returns `None` if anything raises. -/
def sma_model (data : List ℚ) (window : ℕ) : Option SMAResult :=
  let predictions := smaPredictions data window
  match smaSearch data windowCandidates (none, window, predictions) with
  | (_, bw, bp) =>
    match calculate_metrics (toNp data) bp with
    | Except.ok m => some ⟨bp, m, bw⟩
    | Except.error _ => none

/-- The alpha grid of `ses_model`. -/
def alphasToTry : List ℚ := [1/10, 2/10, 3/10, 4/10, 5/10, 6/10, 7/10, 8/10, 9/10]

/-- Result dict of `ses_model`. -/
structure SESResult where
  predictions : List NpFloat
  metrics : Metrics
  alpha : ℚ
deriving DecidableEq

/-- The alpha loop of `ses_model`; `fit α` is the statsmodels
`SimpleExpSmoothing(data).fit(smoothing_level=α).fittedvalues` oracle, whose
failure (`Except.error`) is caught by the inner `try` and skipped. -/
def sesSearch (fit : ℚ → List ℚ → Except String (List NpFloat)) (data : List ℚ) :
    List ℚ → Option ℚ × ℚ × List NpFloat → Option ℚ × ℚ × List NpFloat
  | [], st => st
  | a :: rest, (bm, ba, bp) =>
    match
      (match fit a data with
       | Except.error e => Except.error e
       | Except.ok preds =>
         match calculate_metrics (toNp data) preds with
         | Except.error e => Except.error e
         | Except.ok m => Except.ok (preds, m)) with
    | Except.error _ => sesSearch fit data rest (bm, ba, bp)
    | Except.ok (preds, m) =>
      match m.mape with
      | some q =>
        if ltInf q bm then sesSearch fit data rest (some q, a, preds)
        else sesSearch fit data rest (bm, ba, bp)
      | none => sesSearch fit data rest (bm, ba, bp)

/-- `ses_model(data)`: alpha search starting from
`(inf, 0.3, [])`, final metrics recomputed on the best predictions; any
exception escaping the inner loop (in particular the final
`calculate_metrics` on an empty prediction list) makes the fitter return
`None`. -/
def ses_model (fit : ℚ → List ℚ → Except String (List NpFloat))
    (data : List ℚ) : Option SESResult :=
  match sesSearch fit data alphasToTry (none, 3/10, []) with
  | (_, ba, bp) =>
    match calculate_metrics (toNp data) bp with
    | Except.ok m => some ⟨bp, m, ba⟩
    | Except.error _ => none

/-- An ARIMA order `(p, d, q)`. -/
abbrev ArimaOrder := ℕ × ℕ × ℕ

/-- The fixed candidate orders of `arima_model`. -/
def ordersToTry : List ArimaOrder :=
  [(1, 1, 1), (0, 1, 1), (1, 1, 0), (2, 1, 2), (0, 1, 0), (1, 0, 1)]

/-- Result dict of `arima_model`. -/
structure ArimaResult where
  predictions : List NpFloat
  metrics : Metrics
  order : ArimaOrder
deriving DecidableEq

/-- The order loop of `arima_model`; `fit o` is the statsmodels
`ARIMA(data, order=o).fit().predict()` oracle; failures are skipped. -/
def arimaSearch (fit : ArimaOrder → List ℚ → Except String (List NpFloat))
    (data : List ℚ) :
    List ArimaOrder → Option ℚ × ArimaOrder × List NpFloat →
    Option ℚ × ArimaOrder × List NpFloat
  | [], st => st
  | o :: rest, (bm, bo, bp) =>
    match
      (match fit o data with
       | Except.error e => Except.error e
       | Except.ok preds =>
         match calculate_metrics (toNp data) preds with
         | Except.error e => Except.error e
         | Except.ok m => Except.ok (preds, m)) with
    | Except.error _ => arimaSearch fit data rest (bm, bo, bp)
    | Except.ok (preds, m) =>
      match m.mape with
      | some q =>
        if ltInf q bm then arimaSearch fit data rest (some q, o, preds)
        else arimaSearch fit data rest (bm, bo, bp)
      | none => arimaSearch fit data rest (bm, bo, bp)

/-- `arima_model(data)`: order search starting from `(inf, (1,1,1), [])`,
final metrics recomputed on the best predictions; an exception escaping the
loop (the empty-prediction metrics call when nothing converged) makes the
fitter return `None`. -/
def arima_model (fit : ArimaOrder → List ℚ → Except String (List NpFloat))
    (data : List ℚ) : Option ArimaResult :=
  match arimaSearch fit data ordersToTry (none, (1, 1, 1), []) with
  | (_, bo, bp) =>
    match calculate_metrics (toNp data) bp with
    | Except.ok m => some ⟨bp, m, bo⟩
    | Except.error _ => none

/-- `run_all_models(data)`: each registered fitter runs inside `try/except`;
a fitter that raises (`Except.error`) or returns `None` contributes nothing,
every successful result is appended in registry order.  The result type is a
parameter because the Python results are heterogeneous dicts. -/
def run_all_models {α : Type}
    (models : List (String × (List ℚ → Except String (Option α))))
    (data : List ℚ) : List α :=
  match models with
  | [] => []
  | m :: rest =>
    match m.2 data with
    | Except.ok (some r) => r :: run_all_models rest data
    | Except.ok none => run_all_models rest data
    | Except.error _ => run_all_models rest data

example : smaMape [2, 5, 2, 8, 8, 8] 3 = some (4167/100) := rfl
example : smaMape [2, 5, 2, 8, 8, 8] 4 = some (75/2) := rfl
example : smaMape [2, 5, 2, 8, 8, 8] 6 = none := rfl
example : (sma_model [2, 5, 2, 8, 8, 8] 3).map (fun r => r.window) = some 4 := rfl

/-- CPython float `<` on possibly-NaN sort keys: every comparison against a
NaN is false. -/
def optLtB (x y : Option ℚ) : Bool :=
  match x, y with
  | some a, some b => decide (a < b)
  | _, _ => false

/-- The binary search of CPython's `binarysort`: the leftmost index `p` in
`[lo, hi)` with `pivot < arr[p]`, so that insertion is stable.  The fuel
argument makes the `while l < r` loop structural; `hi - lo ≤ fuel` suffices. -/
def binPos {α : Type} (lt : α → α → Bool) (pivot : α) (arr : List α) :
    ℕ → ℕ → ℕ → ℕ
  | 0, lo, _ => lo
  | fuel + 1, lo, hi =>
    if lo < hi then
      let mid := (lo + hi) / 2
      if lt pivot (arr.getD mid pivot) then binPos lt pivot arr fuel lo mid
      else binPos lt pivot arr fuel (mid + 1) hi
    else lo

/-- Insert `pivot` into the already-sorted prefix at the position found by
binary search. -/
def binInsert {α : Type} (lt : α → α → Bool) (pivot : α) (pre : List α) :
    List α :=
  let p := binPos lt pivot pre pre.length 0 pre.length
  pre.take p ++ pivot :: pre.drop p

/-- `binarysort`: fold the remaining elements into the initial run. -/
def binarysort {α : Type} (lt : α → α → Bool) (run rest : List α) : List α :=
  rest.foldl (fun acc x => binInsert lt x acc) run

/-- Extend a non-descending initial run: stop at the first strict descent. -/
def ascTake {α : Type} (lt : α → α → Bool) : α → List α → List α × List α
  | cur, [] => ([cur], [])
  | cur, z :: zs =>
    if lt z cur then ([cur], z :: zs)
    else
      let r := ascTake lt z zs
      (cur :: r.1, r.2)

/-- Extend a strictly descending initial run. -/
def descTake {α : Type} (lt : α → α → Bool) : α → List α → List α × List α
  | cur, [] => ([cur], [])
  | cur, z :: zs =>
    if lt z cur then
      let r := descTake lt z zs
      (cur :: r.1, r.2)
    else ([cur], z :: zs)

/-- CPython's `count_run`: the maximal non-descending (or strictly
descending, then reversed) initial run, plus the remainder. -/
def runSplit {α : Type} (lt : α → α → Bool) : List α → List α × List α
  | [] => ([], [])
  | [x] => ([x], [])
  | x :: y :: rest =>
    if lt y x then
      let r := descTake lt y rest
      ((x :: r.1).reverse, r.2)
    else
      let r := ascTake lt y rest
      (x :: r.1, r.2)

/-- CPython `sorted` for fewer than 64 elements (always the case for the six
family results): detect the initial run, then binary-insert the rest. -/
def pySort {α : Type} (lt : α → α → Bool) (l : List α) : List α :=
  let r := runSplit lt l
  binarysort lt r.1 r.2

/-- `sorted(results, key=lambda x: x['metrics']['mape'])` in
`run_forecast_models`: comparisons are CPython float `<` on the mape keys. -/
def rankResults {α : Type} (mapeKey : α → Option ℚ) (results : List α) :
    List α :=
  pySort (fun x y => optLtB (mapeKey x) (mapeKey y)) results

example : rankResults id [some 12, none, some 5] = [some 12, none, some 5] := rfl
example : rankResults id [some 12, some 7, some 5, some 9] =
    [some 5, some 7, some 9, some 12] := rfl

/-- The last `n` entries, `data[-n:]` (the whole list when it is shorter). -/
def lastN {α : Type} (n : ℕ) (l : List α) : List α := l.drop (l.length - n)

/-- The library-backed branches of `generate_forecast` (each one both
re-runs its hyperparameter search and produces the `horizon` projection, all
through statsmodels / sklearn calls), abstracted as oracles. -/
structure ForecastOracles where
  ses : List ℚ → ℕ → Except String (List ℚ)
  hw : List ℚ → ℕ → Except String (List ℚ)
  arima : List ℚ → ℕ → Except String (List ℚ)
  linear : List ℚ → ℕ → Except String (List ℚ)
  rf : List ℚ → ℕ → Except String (List ℚ)

/-- The dict returned by `generate_forecast`; `error` is the `'error'` key,
present only on the exception path. -/
structure ForecastResult where
  forecast : List ℚ
  model_name : String
  periods : ℕ
  error : Option String
deriving DecidableEq

/-- The `try` body of `generate_forecast`: the SMA branch ignores any
previously found window and uses the default `window = 3`, repeating
`np.mean(data[-3:])`; the unknown-name branch repeats `np.mean(data)`. -/
def forecastAttempt (oc : ForecastOracles) (model_name : String)
    (data : List ℚ) (periods : ℕ) : Except String (List ℚ) :=
  if model_name = "Media Móvil Simple (SMA)" then
    Except.ok (List.replicate periods (qmean (lastN 3 data)))
  else if model_name = "Suavizado Exponencial Simple (SES)" then
    oc.ses data periods
  else if model_name = "Holt-Winters (Triple Exponencial)" then
    oc.hw data periods
  else if model_name = "ARIMA (AutoRegressive Integrated Moving Average)" then
    oc.arima data periods
  else if model_name = "Regresión Lineal" then
    oc.linear data periods
  else if model_name = "Random Forest" then
    oc.rf data periods
  else
    Except.ok (List.replicate periods (qmean data))

/-- `generate_forecast(model_name, data, periods=12)`: on success no
`'error'` key is attached (in particular for the silent unknown-name
fallback); on an exception the flat mean forecast is returned with the
reason in `'error'`. -/
def generate_forecast (oc : ForecastOracles) (model_name : String)
    (data : List ℚ) (periods : ℕ) : ForecastResult :=
  match forecastAttempt oc model_name data periods with
  | Except.ok f => ⟨f, model_name, periods, none⟩
  | Except.error e =>
    ⟨List.replicate periods (qmean data), model_name, periods, some e⟩

/-- The six registered family names, in registry order. -/
def familyNames : List String :=
  ["Media Móvil Simple (SMA)", "Suavizado Exponencial Simple (SES)",
   "Holt-Winters (Triple Exponencial)",
   "ARIMA (AutoRegressive Integrated Moving Average)",
   "Regresión Lineal", "Random Forest"]

/-- Oracles that always fail, for concrete counterexamples. -/
def failOracles : ForecastOracles :=
  ⟨fun _ _ => Except.error "fit failed", fun _ _ => Except.error "fit failed",
   fun _ _ => Except.error "fit failed", fun _ _ => Except.error "fit failed",
   fun _ _ => Except.error "fit failed"⟩

example : (generate_forecast failOracles "Desconocido" [1, 2, 3] 5) =
    ⟨List.replicate 5 2, "Desconocido", 5, none⟩ := rfl
example : (generate_forecast failOracles "Random Forest" [1, 2, 3] 2) =
    ⟨[2, 2], "Random Forest", 2, some "fit failed"⟩ := rfl

/-- When every candidate order raises, the ARIMA search loop leaves its
state untouched. -/
lemma arimaSearch_allerror (fit : ArimaOrder → List ℚ → Except String (List NpFloat))
    (data : List ℚ) :
    ∀ (os : List ArimaOrder) (st : Option ℚ × ArimaOrder × List NpFloat),
      (∀ o ∈ os, ∃ e, fit o data = Except.error e) →
      arimaSearch fit data os st = st := by
  intro os
  induction os with
  | nil => intro st _; rfl
  | cons o rest ih =>
    intro st h
    obtain ⟨bm, bo, bp⟩ := st
    obtain ⟨e, he⟩ := h o (List.mem_cons_self o rest)
    simp only [arimaSearch, he]
    exact ih (bm, bo, bp) fun o' ho' => h o' (List.mem_cons_of_mem o ho')

/-- When every alpha raises, the SES search loop leaves its state untouched. -/
lemma sesSearch_allerror (fit : ℚ → List ℚ → Except String (List NpFloat))
    (data : List ℚ) :
    ∀ (al : List ℚ) (st : Option ℚ × ℚ × List NpFloat),
      (∀ a ∈ al, ∃ e, fit a data = Except.error e) →
      sesSearch fit data al st = st := by
  intro al
  induction al with
  | nil => intro st _; rfl
  | cons a rest ih =>
    intro st h
    obtain ⟨bm, ba, bp⟩ := st
    obtain ⟨e, he⟩ := h a (List.mem_cons_self a rest)
    simp only [sesSearch, he]
    exact ih (bm, ba, bp) fun a' ha' => h a' (List.mem_cons_of_mem a ha')

/-- `calculate_metrics` raises whenever the two arrays differ in length. -/
lemma calculate_metrics_length_error {actual predicted : List NpFloat}
    (h : actual.length ≠ predicted.length) :
    ∃ e, calculate_metrics actual predicted = Except.error e :=
  ⟨"shape mismatch in valid_mask broadcasting or boolean indexing",
   by simp [calculate_metrics, h]⟩

/-- With a nonempty series and no converging order, `arima_model` returns
`None`: the final `calculate_metrics(data, [])` raises. -/
lemma arima_model_allerror (fit : ArimaOrder → List ℚ → Except String (List NpFloat))
    (data : List ℚ) (hne : data ≠ [])
    (hall : ∀ o ∈ ordersToTry, ∃ e, fit o data = Except.error e) :
    arima_model fit data = none := by
  have hsearch := arimaSearch_allerror fit data ordersToTry (none, (1, 1, 1), []) hall
  have hlen : (toNp data).length ≠ ([] : List NpFloat).length := by
    simpa [toNp] using hne
  obtain ⟨e, he⟩ := calculate_metrics_length_error hlen
  simp only [arima_model]
  rw [hsearch]
  simp [he]

/-- With a nonempty series and no fitting alpha, `ses_model` returns `None`. -/
lemma ses_model_allerror (fit : ℚ → List ℚ → Except String (List NpFloat))
    (data : List ℚ) (hne : data ≠ [])
    (hall : ∀ a ∈ alphasToTry, ∃ e, fit a data = Except.error e) :
    ses_model fit data = none := by
  have hsearch := sesSearch_allerror fit data alphasToTry (none, 3/10, []) hall
  have hlen : (toNp data).length ≠ ([] : List NpFloat).length := by
    simpa [toNp] using hne
  obtain ⟨e, he⟩ := calculate_metrics_length_error hlen
  simp only [ses_model]
  rw [hsearch]
  simp [he]

/-- C1: `calculate_metrics` does not exclude zero-actual pairs from the
MAPE average: on actual [0,10,20] vs predicted [5,11,18] the zero pair
contributes an infinite ratio, the mean is infinite and the reported mape
is NaN (`none`), while the average over the two nonzero pairs alone — what
the spec and the repository's own tests prescribe — is 10.0. -/
theorem calculate_metrics_mape_zero_pair_nan :
    calculate_metrics (toNp [0, 10, 20]) (toNp [5, 11, 18]) =
      Except.ok ⟨some (267/100), some 10, none⟩ ∧
    mapeOf [(10, 11), (20, 18)] = some 10 :=
  ⟨rfl, rfl⟩

/-- C2 counterexample: Python's `sorted` keyed directly on possibly-NaN
mape values does not push NaN entries last: the key sequence
[12.0, NaN, 5.0] is left exactly as it is, not reordered to
[5.0, 12.0, NaN]. -/
theorem rank_nan_not_last_cex :
    rankResults id [some 12, none, some 5] = [some 12, none, some 5] ∧
    rankResults id [some 12, none, some 5] ≠ [some 5, some 12, none] :=
  ⟨rfl, by decide⟩

/-- C3 counterexample: on the series [2,5,2,8,8,8] the moving-average
fitter's grid search selects window 4, but `generate_forecast` repeats the
mean of the last 3 observations (8), which differs from the mean of the
last 4 observations (13/2) — so the forecast does not use the searched
window. -/
theorem forecast_sma_fixed_window_cex :
    (sma_model [2, 5, 2, 8, 8, 8] 3).map (fun r => r.window) = some 4 ∧
    (generate_forecast failOracles "Media Móvil Simple (SMA)"
        [2, 5, 2, 8, 8, 8] 2).forecast = List.replicate 2 8 ∧
    List.replicate 2 (8 : ℚ) ≠
      List.replicate 2 (qmean (lastN 4 [2, 5, 2, 8, 8, 8])) :=
  ⟨rfl, rfl, by decide⟩

/-- C3 amended: for the moving-average family `generate_forecast` performs
no hyperparameter search at all; for every nonempty series and horizon it
repeats the mean of the last 3 observations (the hard-coded default
window), with no error attached. -/
theorem forecast_sma_fixed_window (oc : ForecastOracles) (data : List ℚ)
    (periods : ℕ) (_hne : data ≠ []) :
    generate_forecast oc "Media Móvil Simple (SMA)" data periods =
      ⟨List.replicate periods (qmean (lastN 3 data)),
       "Media Móvil Simple (SMA)", periods, none⟩ := by
  simp [generate_forecast, forecastAttempt]

/-- Witness for the C3 amended theorem at a concrete input. -/
theorem forecast_sma_fixed_window_witness :
    generate_forecast failOracles "Media Móvil Simple (SMA)" [2, 5, 2, 8, 8, 8] 2 =
      ⟨List.replicate 2 (qmean (lastN 3 [2, 5, 2, 8, 8, 8])),
       "Media Móvil Simple (SMA)", 2, none⟩ :=
  forecast_sma_fixed_window failOracles [2, 5, 2, 8, 8, 8] 2 (by decide)

/-- C4 counterexample: for an unknown family name `generate_forecast`
falls back to the flat mean forecast but attaches no failure reason — the
`'error'` key is absent (`none`), contradicting the claim that the reason
is surfaced alongside the fallback. -/
theorem forecast_unknown_silent_cex :
    generate_forecast failOracles "Modelo Inexistente" [1, 2, 3] 5 =
      ⟨List.replicate 5 2, "Modelo Inexistente", 5, none⟩ :=
  rfl

/-- C4 amended: for a nonempty series, an unknown family name yields the
flat mean forecast of `horizon` copies silently (no failure reason), while
an internal failure (a raised exception in the `try` body) yields the same
flat mean forecast with the reason attached; in both cases the function
returns rather than raising. -/
theorem forecast_fallback_amended (oc : ForecastOracles) (name : String)
    (data : List ℚ) (periods : ℕ) (_hne : data ≠ []) :
    (name ∉ familyNames →
      generate_forecast oc name data periods =
        ⟨List.replicate periods (qmean data), name, periods, none⟩) ∧
    (∀ e, forecastAttempt oc name data periods = Except.error e →
      generate_forecast oc name data periods =
        ⟨List.replicate periods (qmean data), name, periods, some e⟩) := by
  constructor
  · intro hn
    simp only [familyNames, List.mem_cons, List.not_mem_nil, or_false, not_or] at hn
    obtain ⟨h1, h2, h3, h4, h5, h6⟩ := hn
    simp [generate_forecast, forecastAttempt, h1, h2, h3, h4, h5, h6]
  · intro e he
    simp [generate_forecast, he]

/-- Witness for the C4 amended theorem at a concrete input. -/
theorem forecast_fallback_amended_witness :
    ("Modelo Inexistente" ∉ familyNames →
      generate_forecast failOracles "Modelo Inexistente" [1, 2, 3] 5 =
        ⟨List.replicate 5 (qmean [1, 2, 3]), "Modelo Inexistente", 5, none⟩) ∧
    (∀ e, forecastAttempt failOracles "Modelo Inexistente" [1, 2, 3] 5 =
        Except.error e →
      generate_forecast failOracles "Modelo Inexistente" [1, 2, 3] 5 =
        ⟨List.replicate 5 (qmean [1, 2, 3]), "Modelo Inexistente", 5, some e⟩) :=
  forecast_fallback_amended failOracles "Modelo Inexistente" [1, 2, 3] 5 (by decide)

/-- C5 counterexample: when every candidate order fails to fit (here: an
oracle that always raises) on the nonempty series [1,2,3], `arima_model`
returns `None` — it does not return a result carrying the default order
(1,1,1). -/
theorem arima_allfail_none_cex :
    arima_model (fun _ _ => Except.error "LinAlgError") [1, 2, 3] = none :=
  rfl

/-- C5 amended: each failing candidate order is skipped, and when no
candidate converges on a nonempty series the fitter returns no result
(`None`) — the final metrics computation on the empty prediction list
raises and is caught by the fitter's own `except` — rather than returning
a FitResult with the default order (1,1,1). -/
theorem arima_allfail_none (fit : ArimaOrder → List ℚ → Except String (List NpFloat))
    (data : List ℚ) (hne : data ≠ [])
    (hall : ∀ o ∈ ordersToTry, ∃ e, fit o data = Except.error e) :
    arima_model fit data = none :=
  arima_model_allerror fit data hne hall

/-- Witness for the C5 amended theorem at a concrete input. -/
theorem arima_allfail_none_witness :
    arima_model (fun _ _ => Except.error "nc") [1, 2, 3] = none :=
  arima_allfail_none (fun _ _ => Except.error "nc") [1, 2, 3] (by decide)
    (fun o _ => ⟨"nc", rfl⟩)

/-- C7: `calculate_metrics` is not total on length-mismatched inputs — for
every nonempty actual paired with an empty prediction sequence the mask
combination raises — and consequently a fitter whose candidates all fail
(modelled for the ARIMA and SES fitters) returns no result. -/
theorem calculate_metrics_mismatch_raises (data : List ℚ) (hne : data ≠ []) :
    (∃ e, calculate_metrics (toNp data) [] = Except.error e) ∧
    (∀ fit, (∀ o ∈ ordersToTry, ∃ e, fit o data = Except.error e) →
      arima_model fit data = none) ∧
    (∀ fit, (∀ a ∈ alphasToTry, ∃ e, fit a data = Except.error e) →
      ses_model fit data = none) := by
  refine ⟨?_, ?_, ?_⟩
  · exact calculate_metrics_length_error (by simpa [toNp] using hne)
  · exact fun fit hall => arima_model_allerror fit data hne hall
  · exact fun fit hall => ses_model_allerror fit data hne hall

/-- Witness for C7 at a concrete input. -/
theorem calculate_metrics_mismatch_raises_witness :
    (∃ e, calculate_metrics (toNp [4, 7]) [] = Except.error e) ∧
    (∀ fit, (∀ o ∈ ordersToTry, ∃ e, fit o [4, 7] = Except.error e) →
      arima_model fit [4, 7] = none) ∧
    (∀ fit, (∀ a ∈ alphasToTry, ∃ e, fit a [4, 7] = Except.error e) →
      ses_model fit [4, 7] = none) :=
  calculate_metrics_mismatch_raises [4, 7] (by decide)

/-- C10: the ensemble runner returns exactly the successful fit results in
registry order — a fitter that raises (`Except.error`) or returns `None`
is excluded, the rest are kept — and when every fitter fails the returned
list is empty; the runner itself is a total function (it never raises). -/
theorem run_all_models_filter {α : Type}
    (models : List (String × (List ℚ → Except String (Option α))))
    (data : List ℚ) :
    run_all_models models data = models.filterMap (fun m =>
      match m.2 data with
      | Except.ok (some r) => some r
      | _ => none) ∧
    ((∀ m ∈ models, ∀ r : α, m.2 data ≠ Except.ok (some r)) →
      run_all_models models data = []) := by
  constructor
  · induction models with
    | nil => rfl
    | cons m rest ih =>
      simp only [run_all_models, List.filterMap_cons]
      cases hm : m.2 data with
      | error e => simpa [hm] using ih
      | ok o =>
        cases o with
        | none => simpa [hm] using ih
        | some r => simpa [hm] using ih
  · intro hfail
    induction models with
    | nil => rfl
    | cons m rest ih =>
      have hm := hfail m (List.mem_cons_self m rest)
      simp only [run_all_models]
      cases hmd : m.2 data with
      | error e => exact ih fun m' hm' => hfail m' (List.mem_cons_of_mem m hm')
      | ok o =>
        cases o with
        | none => exact ih fun m' hm' => hfail m' (List.mem_cons_of_mem m hm')
        | some r => exact absurd hmd (hm r)

/-- Witness for C10 at a concrete registry mixing a raising fitter, a
`None`-returning fitter and a successful one. -/
theorem run_all_models_filter_witness :
    run_all_models
        [("a", fun _ => Except.error "boom"),
         ("b", fun _ => Except.ok none),
         ("c", fun _ => Except.ok (some (7 : ℕ)))] [1] =
      [("a", fun (_ : List ℚ) => (Except.error "boom" : Except String (Option ℕ))),
         ("b", fun _ => Except.ok none),
         ("c", fun _ => Except.ok (some 7))].filterMap (fun m =>
        match m.2 [1] with
        | Except.ok (some r) => some r
        | _ => none) ∧
    ((∀ m ∈ [("a", fun (_ : List ℚ) => (Except.error "boom" : Except String (Option ℕ))),
         ("b", fun _ => Except.ok none),
         ("c", fun _ => Except.ok (some 7))], ∀ r : ℕ, m.2 [1] ≠ Except.ok (some r)) →
      run_all_models
        [("a", fun _ => Except.error "boom"),
         ("b", fun _ => Except.ok none),
         ("c", fun _ => Except.ok (some (7 : ℕ)))] [1] = []) :=
  run_all_models_filter _ [1]

lemma validPairs_self : ∀ s : List ℚ,
    validPairs (toNp s) (toNp s) = s.map fun a => (a, a)
  | [] => rfl
  | a :: t => by
    simpa [validPairs, toNp] using validPairs_self t

lemma round2_zero : round2 0 = 0 := by decide

lemma qmean_nonneg {l : List ℚ} (h : ∀ x ∈ l, 0 ≤ x) : 0 ≤ qmean l :=
  div_nonneg (List.sum_nonneg h) (by positivity)

lemma round2_nonneg {x : ℚ} (hx : 0 ≤ x) : 0 ≤ round2 x := by
  have h100 : (0 : ℚ) ≤ x * 100 := by linarith
  have hfl : (0 : ℤ) ≤ qfloor (x * 100) := by
    rw [qfloor_eq_floor]
    exact Int.floor_nonneg.2 h100
  have hfl2 : (0 : ℤ) ≤ qfloor (x * 100 + 1/2) := by
    rw [qfloor_eq_floor]
    exact Int.floor_nonneg.2 (by linarith)
  unfold round2 rheInt
  split
  · split
    · positivity
    · have : (0 : ℚ) ≤ ((qfloor (x * 100) + 1 : ℤ) : ℚ) := by
        exact_mod_cast Int.add_nonneg hfl (by norm_num)
      positivity
  · positivity

lemma round2R_nonneg {x : ℝ} (hx : 0 ≤ x) : 0 ≤ round2R x := by
  have h100 : (0 : ℝ) ≤ x * 100 := by linarith
  have hfl : (0 : ℤ) ≤ ⌊x * 100⌋ := Int.floor_nonneg.2 h100
  have hrd : (0 : ℤ) ≤ round (x * 100) := by
    rw [round_eq]
    exact Int.floor_nonneg.2 (by linarith)
  unfold round2R rheIntR
  split
  · split
    · positivity
    · have : (0 : ℝ) ≤ ((⌊x * 100⌋ + 1 : ℤ) : ℝ) := by
        exact_mod_cast Int.add_nonneg hfl (by norm_num)
      positivity
  · positivity

lemma npMeanVal_all_zero {l : List NpVal} (hne : l ≠ [])
    (h : ∀ v ∈ l, v = NpVal.num 0) : npMeanVal l = NpVal.num 0 := by
  have h1 : l.any (fun v => match v with | NpVal.nan => true | _ => false) = false := by
    rw [List.any_eq_false]
    intro v hv
    rw [h v hv]
    simp
  have h2 : l.any (fun v => match v with | NpVal.inf => true | _ => false) = false := by
    rw [List.any_eq_false]
    intro v hv
    rw [h v hv]
    simp
  obtain ⟨a, t, rfl⟩ := List.exists_cons_of_ne_nil hne
  simp only [npMeanVal, h1, h2, Bool.false_eq_true, if_false]
  congr 1
  unfold qmean
  rw [List.sum_eq_zero, zero_div]
  intro x hx
  rw [List.mem_filterMap] at hx
  obtain ⟨v, hv, hfv⟩ := hx
  rw [h v hv] at hfv
  simpa using hfv.symm

lemma npMeanVal_num_nonneg {l : List NpVal} {q : ℚ}
    (h : ∀ r, NpVal.num r ∈ l → 0 ≤ r) (hm : npMeanVal l = NpVal.num q) :
    0 ≤ q := by
  unfold npMeanVal at hm
  split at hm
  · exact absurd hm (by simp)
  · split at hm
    · exact absurd hm (by simp)
    · split at hm
      · exact absurd hm (by simp)
      · rw [NpVal.num.injEq] at hm
        subst hm
        apply qmean_nonneg
        intro x hx
        rw [List.mem_filterMap] at hx
        obtain ⟨v, hv, hfv⟩ := hx
        match v, hfv with
        | NpVal.num r, hfv =>
          have : r = x := by simpa using hfv
          exact this ▸ h r hv

/-- C9: on a nonempty series with no NaNs and no zeros, scoring the series
against itself gives all four metrics equal to 0. -/
theorem metrics_identity_zero (s : List ℚ) (hne : s ≠ [])
    (hz : ∀ x ∈ s, x ≠ 0) :
    calculate_metrics (toNp s) (toNp s) = Except.ok ⟨some 0, some 0, some 0⟩ ∧
    rmseReported (toNp s) (toNp s) = some 0 := by
  have hvp : validPairs (toNp s) (toNp s) = s.map fun a => (a, a) :=
    validPairs_self s
  have hpe : ((s.map fun a => (a, a)).isEmpty) = false := by
    obtain ⟨a, t, rfl⟩ := List.exists_cons_of_ne_nil hne
    rfl
  have hmae : maeRawOf (s.map fun a => (a, a)) = 0 := by
    unfold maeRawOf qmean
    rw [List.map_map, List.sum_eq_zero, zero_div]
    intro x hx
    rw [List.mem_map] at hx
    obtain ⟨a, _, rfl⟩ := hx
    simp
  have hmse : mseRawOf (s.map fun a => (a, a)) = 0 := by
    unfold mseRawOf qmean
    rw [List.map_map, List.sum_eq_zero, zero_div]
    intro x hx
    rw [List.mem_map] at hx
    obtain ⟨a, _, rfl⟩ := hx
    simp
  have hratios : (s.map fun a => (a, a)).map (fun ap => npAbsRatio ap.1 ap.2) =
      s.map fun _ => NpVal.num 0 := by
    rw [List.map_map]
    apply List.map_congr_left
    intro a ha
    simp [npAbsRatio, hz a ha]
  have hmape : mapeOf (s.map fun a => (a, a)) = some 0 := by
    unfold mapeOf
    rw [hratios, npMeanVal_all_zero]
    · simp [round2_zero]
    · simpa using hne
    · intro v hv
      rw [List.mem_map] at hv
      obtain ⟨a, _, rfl⟩ := hv
      rfl
  have hmetrics : metricsOf (toNp s) (toNp s) = ⟨some 0, some 0, some 0⟩ := by
    unfold metricsOf
    rw [hvp]
    simp only [hpe, Bool.false_eq_true, if_false]
    rw [hmae, hmse, hmape, round2_zero]
  refine ⟨?_, ?_⟩
  · simp [calculate_metrics, hmetrics]
  · unfold rmseReported rmseRaw
    rw [hvp, hpe, hmse]
    simp only [Bool.false_eq_true, if_false]
    rw [Rat.cast_zero, Real.sqrt_zero]
    unfold round2R rheIntR
    norm_num

/-- Witness for C9 at a concrete series. -/
theorem metrics_identity_zero_witness :
    calculate_metrics (toNp [5, 7]) (toNp [5, 7]) =
      Except.ok ⟨some 0, some 0, some 0⟩ ∧
    rmseReported (toNp [5, 7]) (toNp [5, 7]) = some 0 :=
  metrics_identity_zero [5, 7] (by decide) (by decide)

/-- C8 amended: before the 2-decimal rounding of reported values the rmse
invariant is exact — the computed rmse is the square root of the unrounded
mse, so its square equals the mse — and every defined metric value,
reported or raw, is nonnegative.  (After rounding, reported rmse² can
differ from reported mse by far more than floating tolerance; see the
counterexample.) -/
theorem rmse_sq_mse_amended (actual predicted : List NpFloat) :
    (rmseRaw actual predicted) ^ 2 =
      ((mseRawOf (validPairs actual predicted) : ℚ) : ℝ) ∧
    0 ≤ rmseRaw actual predicted ∧
    (∀ q, (metricsOf actual predicted).mae = some q → 0 ≤ q) ∧
    (∀ q, (metricsOf actual predicted).mse = some q → 0 ≤ q) ∧
    (∀ q, (metricsOf actual predicted).mape = some q → 0 ≤ q) ∧
    (∀ r, rmseReported actual predicted = some r → 0 ≤ r) := by
  have hmse0 : 0 ≤ mseRawOf (validPairs actual predicted) := by
    apply qmean_nonneg
    intro x hx
    rw [List.mem_map] at hx
    obtain ⟨ap, _, rfl⟩ := hx
    positivity
  have hmae0 : 0 ≤ maeRawOf (validPairs actual predicted) := by
    apply qmean_nonneg
    intro x hx
    rw [List.mem_map] at hx
    obtain ⟨ap, _, rfl⟩ := hx
    positivity
  have hmetE : (validPairs actual predicted).isEmpty = true →
      metricsOf actual predicted = ⟨none, none, none⟩ := by
    intro h
    simp [metricsOf, h]
  have hmetN : (validPairs actual predicted).isEmpty = false →
      metricsOf actual predicted =
        ⟨some (round2 (maeRawOf (validPairs actual predicted))),
         some (round2 (mseRawOf (validPairs actual predicted))),
         mapeOf (validPairs actual predicted)⟩ := by
    intro h
    simp [metricsOf, h]
  have hmape_nonneg : ∀ q, mapeOf (validPairs actual predicted) = some q → 0 ≤ q := by
    intro q hq
    unfold mapeOf at hq
    split at hq
    case _ q' hq' =>
      rw [Option.some.injEq] at hq
      subst hq
      apply round2_nonneg
      have hq'0 : 0 ≤ q' := by
        apply npMeanVal_num_nonneg _ hq'
        intro r hr
        rw [List.mem_map] at hr
        obtain ⟨ap, _, hap⟩ := hr
        unfold npAbsRatio at hap
        split at hap
        · split at hap
          · exact absurd hap (by simp)
          · exact absurd hap (by simp)
        · have : |(ap.1 - ap.2) / ap.1| = r := by simpa using hap
          rw [← this]
          positivity
      linarith
    case _ => exact absurd hq (by simp)
  refine ⟨?_, Real.sqrt_nonneg _, ?_, ?_, ?_, ?_⟩
  · exact Real.sq_sqrt (by exact_mod_cast hmse0)
  · intro q hq
    cases hc : (validPairs actual predicted).isEmpty with
    | true => rw [hmetE hc] at hq; exact absurd hq (by simp)
    | false =>
      rw [hmetN hc] at hq
      rw [show (Metrics.mk (some (round2 (maeRawOf (validPairs actual predicted))))
          (some (round2 (mseRawOf (validPairs actual predicted))))
          (mapeOf (validPairs actual predicted))).mae
          = some (round2 (maeRawOf (validPairs actual predicted))) from rfl,
        Option.some.injEq] at hq
      subst hq
      exact round2_nonneg hmae0
  · intro q hq
    cases hc : (validPairs actual predicted).isEmpty with
    | true => rw [hmetE hc] at hq; exact absurd hq (by simp)
    | false =>
      rw [hmetN hc] at hq
      rw [show (Metrics.mk (some (round2 (maeRawOf (validPairs actual predicted))))
          (some (round2 (mseRawOf (validPairs actual predicted))))
          (mapeOf (validPairs actual predicted))).mse
          = some (round2 (mseRawOf (validPairs actual predicted))) from rfl,
        Option.some.injEq] at hq
      subst hq
      exact round2_nonneg hmse0
  · intro q hq
    cases hc : (validPairs actual predicted).isEmpty with
    | true => rw [hmetE hc] at hq; exact absurd hq (by simp)
    | false =>
      rw [hmetN hc] at hq
      exact hmape_nonneg q hq
  · intro r hr
    unfold rmseReported at hr
    split at hr
    · exact absurd hr (by simp)
    · rw [Option.some.injEq] at hr
      subst hr
      exact round2R_nonneg (Real.sqrt_nonneg _)

/-- CPython float `<` restricted to defined (non-NaN) keys. -/
def qlt (a b : ℚ) : Bool := decide (a < b)

lemma getD_eq_getElem' {l : List ℚ} {n : ℕ} (h : n < l.length) (d : ℚ) :
    l.getD n d = l[n] := by
  simp [List.getD_eq_getElem?_getD, List.getElem?_eq_getElem h]

lemma sorted_getD_mono {l : List ℚ} (hs : l.Sorted (· ≤ ·)) {i j : ℕ}
    (hij : i ≤ j) (hj : j < l.length) : l.getD i 0 ≤ l.getD j 0 := by
  have hi : i < l.length := lt_of_le_of_lt hij hj
  rw [getD_eq_getElem' hi, getD_eq_getElem' hj]
  rcases eq_or_lt_of_le hij with rfl | hlt
  · exact le_refl _
  · exact List.pairwise_iff_getElem.1 hs i j hi hj hlt

/-- Boundary invariant of the binary search: every index left of the found
position holds a value ≤ pivot, every index at or right of it (within the
array) holds a value > pivot. -/
lemma binPos_spec (pivot : ℚ) (arr : List ℚ) (hs : arr.Sorted (· ≤ ·)) :
    ∀ (fuel lo hi : ℕ), hi - lo ≤ fuel → hi ≤ arr.length →
      (∀ i, i < lo → ¬ pivot < arr.getD i 0) →
      (∀ i, hi ≤ i → i < arr.length → pivot < arr.getD i 0) →
      (∀ i, i < binPos qlt pivot arr fuel lo hi → ¬ pivot < arr.getD i 0) ∧
      (∀ i, binPos qlt pivot arr fuel lo hi ≤ i → i < arr.length →
        pivot < arr.getD i 0) := by
  intro fuel
  induction fuel with
  | zero =>
    intro lo hi hfuel _ hleft hright
    have hhl : hi ≤ lo := by omega
    simp only [binPos]
    exact ⟨hleft, fun i hli hil => hright i (le_trans hhl hli) hil⟩
  | succ n ih =>
    intro lo hi hfuel hhi hleft hright
    simp only [binPos]
    by_cases hlh : lo < hi
    · rw [if_pos hlh]
      have hmidlo : lo ≤ (lo + hi) / 2 := by omega
      have hmidhi : (lo + hi) / 2 < hi := by omega
      have hmidlen : (lo + hi) / 2 < arr.length := lt_of_lt_of_le hmidhi hhi
      have hgetD : arr.getD ((lo + hi) / 2) pivot = arr.getD ((lo + hi) / 2) 0 := by
        rw [getD_eq_getElem' hmidlen, getD_eq_getElem' hmidlen]
      by_cases hc : qlt pivot (arr.getD ((lo + hi) / 2) pivot) = true
      · rw [if_pos hc]
        have hpm : pivot < arr.getD ((lo + hi) / 2) 0 := by
          rw [← hgetD]
          simpa [qlt] using hc
        exact ih lo ((lo + hi) / 2) (by omega) (le_of_lt hmidlen) hleft
          (fun i h1 h2 =>
            lt_of_lt_of_le hpm (sorted_getD_mono hs h1 h2))
      · rw [if_neg hc]
        have hpm : ¬ pivot < arr.getD ((lo + hi) / 2) 0 := by
          rw [← hgetD]
          simpa [qlt] using hc
        refine ih ((lo + hi) / 2 + 1) hi (by omega) hhi ?_ hright
        intro i hi1
        by_cases hilo : i < lo
        · exact hleft i hilo
        · intro habs
          exact hpm (lt_of_lt_of_le habs
            (sorted_getD_mono hs (by omega) hmidlen))
    · rw [if_neg hlh]
      exact ⟨hleft, fun i hli hil =>
        hright i (le_trans (by omega) hli) hil⟩

lemma binInsert_sorted {pre : List ℚ} (hs : pre.Sorted (· ≤ ·)) (pivot : ℚ) :
    (binInsert qlt pivot pre).Sorted (· ≤ ·) := by
  obtain ⟨hL, hR⟩ := binPos_spec pivot pre hs pre.length 0 pre.length
    (by omega) (le_refl _)
    (fun i hi => absurd hi (Nat.not_lt_zero i))
    (fun i h1 h2 => absurd h2 (by omega))
  show List.Pairwise (· ≤ ·)
    (pre.take (binPos qlt pivot pre pre.length 0 pre.length) ++
      pivot :: pre.drop (binPos qlt pivot pre pre.length 0 pre.length))
  rw [List.pairwise_append]
  refine ⟨List.Pairwise.sublist (List.take_sublist _ _) hs, ?_, ?_⟩
  · rw [List.pairwise_cons]
    refine ⟨?_, List.Pairwise.sublist (List.drop_sublist _ _) hs⟩
    intro y hy
    rw [List.mem_iff_getElem] at hy
    obtain ⟨k, hk, rfl⟩ := hy
    have hpk : binPos qlt pivot pre pre.length 0 pre.length + k < pre.length := by
      have := hk
      rw [List.length_drop] at this
      omega
    have h2 := hR _ (Nat.le_add_right _ k) hpk
    rw [getD_eq_getElem' hpk] at h2
    rw [List.getElem_drop]
    exact le_of_lt h2
  · intro x hx y hy
    rw [List.mem_iff_getElem] at hx
    obtain ⟨i, hi, rfl⟩ := hx
    have hlen_take : i < pre.length := by
      have := hi
      rw [List.length_take] at this
      omega
    have hip : i < binPos qlt pivot pre pre.length 0 pre.length := by
      have := hi
      rw [List.length_take] at this
      omega
    have h1 := hL i hip
    rw [getD_eq_getElem' hlen_take] at h1
    rw [List.getElem_take]
    rcases List.mem_cons.1 hy with rfl | hy'
    · exact not_lt.1 h1
    · rw [List.mem_iff_getElem] at hy'
      obtain ⟨k, hk, rfl⟩ := hy'
      have hpk : binPos qlt pivot pre pre.length 0 pre.length + k < pre.length := by
        have := hk
        rw [List.length_drop] at this
        omega
      have h2 := hR _ (Nat.le_add_right _ k) hpk
      rw [getD_eq_getElem' hpk] at h2
      rw [List.getElem_drop]
      exact le_trans (not_lt.1 h1) (le_of_lt h2)

lemma binInsert_perm (pivot : ℚ) (pre : List ℚ) :
    (binInsert qlt pivot pre).Perm (pivot :: pre) := by
  show (pre.take (binPos qlt pivot pre pre.length 0 pre.length) ++
      pivot :: pre.drop (binPos qlt pivot pre pre.length 0 pre.length)).Perm
    (pivot :: pre)
  refine List.perm_middle.trans ?_
  rw [List.take_append_drop]

lemma binarysort_sorted :
    ∀ (rest run : List ℚ), run.Sorted (· ≤ ·) →
      (binarysort qlt run rest).Sorted (· ≤ ·) := by
  intro rest
  induction rest with
  | nil => intro run h; exact h
  | cons x xs ih =>
    intro run h
    show (binarysort qlt (binInsert qlt x run) xs).Sorted (· ≤ ·)
    exact ih _ (binInsert_sorted h x)

lemma binarysort_perm :
    ∀ (rest run : List ℚ), (binarysort qlt run rest).Perm (run ++ rest) := by
  intro rest
  induction rest with
  | nil => intro run; simp [binarysort]
  | cons x xs ih =>
    intro run
    show (binarysort qlt (binInsert qlt x run) xs).Perm (run ++ x :: xs)
    refine (ih (binInsert qlt x run)).trans ?_
    refine (List.Perm.append_right xs (binInsert_perm x run)).trans ?_
    exact List.perm_middle.symm

lemma ascTake_join {α : Type} (lt : α → α → Bool) :
    ∀ (zs : List α) (cur : α),
      cur :: zs = (ascTake lt cur zs).1 ++ (ascTake lt cur zs).2 := by
  intro zs
  induction zs with
  | nil => intro cur; rfl
  | cons z zs ih =>
    intro cur
    simp only [ascTake]
    by_cases h : lt z cur = true
    · rw [if_pos h]
      rfl
    · rw [if_neg h]
      show cur :: z :: zs = cur :: ((ascTake lt z zs).1 ++ (ascTake lt z zs).2)
      rw [← ih z]

lemma descTake_join {α : Type} (lt : α → α → Bool) :
    ∀ (zs : List α) (cur : α),
      cur :: zs = (descTake lt cur zs).1 ++ (descTake lt cur zs).2 := by
  intro zs
  induction zs with
  | nil => intro cur; rfl
  | cons z zs ih =>
    intro cur
    simp only [descTake]
    by_cases h : lt z cur = true
    · rw [if_pos h]
      show cur :: z :: zs = cur :: ((descTake lt z zs).1 ++ (descTake lt z zs).2)
      rw [← ih z]
    · rw [if_neg h]
      rfl

lemma runSplit_perm {α : Type} (lt : α → α → Bool) :
    ∀ l : List α, ((runSplit lt l).1 ++ (runSplit lt l).2).Perm l := by
  intro l
  match l with
  | [] => exact List.Perm.refl _
  | [x] => exact List.Perm.refl _
  | x :: y :: rest =>
    simp only [runSplit]
    by_cases h : lt y x = true
    · rw [if_pos h]
      refine (List.Perm.append_right _ (List.reverse_perm _)).trans ?_
      show (x :: ((descTake lt y rest).1 ++ (descTake lt y rest).2)).Perm
        (x :: y :: rest)
      rw [← descTake_join lt rest y]
    · rw [if_neg h]
      show (x :: ((ascTake lt y rest).1 ++ (ascTake lt y rest).2)).Perm
        (x :: y :: rest)
      rw [← ascTake_join lt rest y]

lemma ascTake_spec :
    ∀ (zs : List ℚ) (cur : ℚ),
      ((ascTake qlt cur zs).1).Sorted (· ≤ ·) ∧
      ∀ y ∈ (ascTake qlt cur zs).1, cur ≤ y := by
  intro zs
  induction zs with
  | nil => intro cur; exact ⟨by simp [ascTake], by simp [ascTake]⟩
  | cons z zs ih =>
    intro cur
    simp only [ascTake]
    by_cases h : qlt z cur = true
    · rw [if_pos h]
      exact ⟨by simp, by simp⟩
    · rw [if_neg h]
      have hzc : cur ≤ z := by
        simpa [qlt, not_lt] using h
      obtain ⟨hs, hall⟩ := ih z
      constructor
      · rw [List.sorted_cons]
        exact ⟨fun b hb => le_trans hzc (hall b hb), hs⟩
      · intro y hy
        rcases List.mem_cons.1 hy with rfl | hy'
        · exact le_refl _
        · exact le_trans hzc (hall y hy')

lemma descTake_spec :
    ∀ (zs : List ℚ) (cur : ℚ),
      ((descTake qlt cur zs).1).Sorted (· > ·) ∧
      ∀ y ∈ (descTake qlt cur zs).1, y ≤ cur := by
  intro zs
  induction zs with
  | nil => intro cur; exact ⟨by simp [descTake], by simp [descTake]⟩
  | cons z zs ih =>
    intro cur
    simp only [descTake]
    by_cases h : qlt z cur = true
    · rw [if_pos h]
      have hzc : z < cur := by simpa [qlt] using h
      obtain ⟨hs, hall⟩ := ih z
      constructor
      · rw [List.sorted_cons]
        exact ⟨fun b hb => lt_of_le_of_lt (hall b hb) hzc, hs⟩
      · intro y hy
        rcases List.mem_cons.1 hy with rfl | hy'
        · exact le_refl _
        · exact le_trans (hall y hy') (le_of_lt hzc)
    · rw [if_neg h]
      exact ⟨by simp, by simp⟩

lemma runSplit_sorted :
    ∀ l : List ℚ, ((runSplit qlt l).1).Sorted (· ≤ ·) := by
  intro l
  match l with
  | [] => simp [runSplit]
  | [x] => simp [runSplit]
  | x :: y :: rest =>
    simp only [runSplit]
    by_cases h : qlt y x = true
    · rw [if_pos h]
      have hyx : y < x := by simpa [qlt] using h
      obtain ⟨hs, hall⟩ := descTake_spec rest y
      have hdesc : (x :: (descTake qlt y rest).1).Sorted (· > ·) := by
        rw [List.sorted_cons]
        exact ⟨fun b hb => lt_of_le_of_lt (hall b hb) hyx, hs⟩
      rw [List.Sorted, List.pairwise_reverse]
      exact hdesc.imp fun hab => le_of_lt hab
    · rw [if_neg h]
      have hxy : x ≤ y := by simpa [qlt, not_lt] using h
      obtain ⟨hs, hall⟩ := ascTake_spec rest y
      rw [List.sorted_cons]
      exact ⟨fun b hb => le_trans hxy (hall b hb), hs⟩

lemma pySort_sorted (l : List ℚ) : (pySort qlt l).Sorted (· ≤ ·) :=
  binarysort_sorted _ _ (runSplit_sorted l)

lemma pySort_perm (l : List ℚ) : (pySort qlt l).Perm l :=
  (binarysort_perm _ _).trans (runSplit_perm qlt l)

/-- C2 amended: when every mape key is defined the ranking stage sorts
ascending (and is a permutation of its input), but NaN keys are NOT pushed
last: every comparison against NaN is false, so the run detection already
sees [12.0, NaN, 5.0] as non-descending and returns it unchanged. -/
theorem rank_sorted_amended :
    (∀ l : List ℚ, (rankResults some l).Sorted (· ≤ ·) ∧
      (rankResults some l).Perm l) ∧
    rankResults id [some 12, none, some 5] = [some 12, none, some 5] := by
  refine ⟨fun l => ?_, rfl⟩
  have hkey : rankResults (fun q : ℚ => some q) l = pySort qlt l := rfl
  rw [show rankResults some l = pySort qlt l from rfl]
  exact ⟨pySort_sorted l, pySort_perm l⟩

/-- C8 counterexample: on actual [1,2] vs predicted [2,4] the reported
(2-decimal-rounded) rmse is 1.58 while the reported mse is 2.5, and
1.58² = 2.4964 differs from 2.5 by 0.0036 — far beyond floating
tolerance — so on reported values the invariant rmse² = mse fails. -/
theorem rmse_rounding_cex :
    (metricsOf (toNp [1, 2]) (toNp [2, 4])).mse = some (5/2) ∧
    rmseReported (toNp [1, 2]) (toNp [2, 4]) = some (79/50) ∧
    ¬ |((79 : ℝ)/50) ^ 2 - ((5 : ℝ)/2)| < 1/1000 := by
  refine ⟨by decide, ?_, by rw [abs_sub_comm]; rw [abs_of_pos (by norm_num)]; norm_num⟩
  have hvp : validPairs (toNp [1, 2]) (toNp [2, 4]) = [(1, 2), (2, 4)] := rfl
  have hmse : mseRawOf [((1 : ℚ), (2 : ℚ)), (2, 4)] = 5/2 := by decide
  have hstep : rmseReported (toNp [1, 2]) (toNp [2, 4]) =
      some (round2R (Real.sqrt (((5 : ℚ)/2 : ℚ) : ℝ))) := by
    unfold rmseReported rmseRaw
    rw [hvp, hmse]
    rfl
  rw [hstep]
  have hcast : (((5 : ℚ)/2 : ℚ) : ℝ) = (5 : ℝ)/2 := by norm_num
  rw [hcast]
  have hylb : (1581/1000 : ℝ) < Real.sqrt ((5 : ℝ)/2) := by
    rw [Real.lt_sqrt (by norm_num)]
    norm_num
  have hyub : Real.sqrt ((5 : ℝ)/2) < 1582/1000 := by
    rw [Real.sqrt_lt' (by norm_num)]
    norm_num
  set y : ℝ := Real.sqrt ((5 : ℝ)/2) * 100 with hy
  have hylb' : (1581/10 : ℝ) < y := by rw [hy]; linarith
  have hyub' : y < 1582/10 := by rw [hy]; linarith
  have hfloor : ⌊y⌋ = 158 := by
    rw [Int.floor_eq_iff]
    constructor
    · push_cast
      linarith
    · push_cast
      linarith
  have hfract : Int.fract y ≠ 1/2 := by
    rw [Int.fract, hfloor]
    push_cast
    intro h
    have : y = 158.5 := by linarith
    rw [this] at hyub'
    norm_num at hyub'
  have hround : round y = 158 := by
    rw [round_eq, Int.floor_eq_iff]
    constructor
    · push_cast
      linarith
    · push_cast
      linarith
  show some (round2R (Real.sqrt ((5 : ℝ)/2))) = some ((79 : ℝ)/50)
  unfold round2R rheIntR
  rw [← hy, if_neg hfract, hround]
  norm_num

/-- `x ≤ y` on MAPE values where `none` is the initial `float('inf')`. -/
def leInfP : Option ℚ → Option ℚ → Prop
  | _, none => True
  | none, some _ => False
  | some a, some b => a ≤ b

lemma leInfP_refl (x : Option ℚ) : leInfP x x := by
  cases x <;> simp [leInfP]

lemma leInfP_some {x : Option ℚ} {q : ℚ} (h : leInfP x (some q)) :
    ∃ qb, x = some qb ∧ qb ≤ q := by
  cases x with
  | none => exact absurd h (by simp [leInfP])
  | some a => exact ⟨a, rfl, h⟩

lemma leInfP_of_ltInf {q : ℚ} {bm : Option ℚ} (h : ltInf q bm = true) :
    leInfP (some q) bm := by
  cases bm with
  | none => trivial
  | some b =>
    simp only [ltInf, decide_eq_true_eq] at h
    exact le_of_lt h

lemma ltInf_trans {a q : ℚ} {bm : Option ℚ} (h1 : ltInf a (some q) = true)
    (h2 : ltInf q bm = true) : ltInf a bm = true := by
  cases bm with
  | none => rfl
  | some b =>
    simp only [ltInf, decide_eq_true_eq] at h1 h2 ⊢
    linarith

lemma ltInf_false {q : ℚ} {bm : Option ℚ} (h : ltInf q bm = false) :
    ∃ b, bm = some b ∧ b ≤ q := by
  cases bm with
  | none => simp [ltInf] at h
  | some b =>
    simp only [ltInf, decide_eq_false_iff_not, not_lt] at h
    exact ⟨b, rfl, h⟩

/-- When no window has a defined MAPE, the search leaves its state alone. -/
lemma smaSearch_allnone (data : List ℚ) :
    ∀ (ws : List ℕ) (st : Option ℚ × ℕ × List NpFloat),
      (∀ w ∈ ws, smaMape data w = none) →
      smaSearch data ws st = st := by
  intro ws
  induction ws with
  | nil => intro st _; rfl
  | cons w rest ih =>
    intro st h
    obtain ⟨bm, bw, bp⟩ := st
    have hw := h w (List.mem_cons_self w rest)
    simp only [smaSearch, hw]
    exact ih (bm, bw, bp) fun w' hw' => h w' (List.mem_cons_of_mem w hw')

/-- Invariant of the window grid search: starting from a consistent state,
the final state carries the predictions of its own window, its best MAPE is
that window's MAPE (when defined), it never worsens the incumbent, it beats
every defined candidate in the remaining list, and it beats strictly every
defined candidate that precedes the finally chosen window (first-wins
tie-breaking). -/
lemma smaSearch_spec (data : List ℚ) :
    ∀ (ws : List ℕ) (bm : Option ℚ) (bw : ℕ) (bp : List NpFloat)
      (st : Option ℚ × ℕ × List NpFloat),
      List.Pairwise (· < ·) ws →
      bp = smaPredictions data bw →
      (bm = none ∨ bm = smaMape data bw) →
      (bm = none ∨ ∀ w ∈ ws, bw < w) →
      smaSearch data ws (bm, bw, bp) = st →
      (st.2.2 = smaPredictions data st.2.1 ∧
       (st.1 = none ∨ st.1 = smaMape data st.2.1) ∧
       leInfP st.1 bm ∧
       (st = (bm, bw, bp) ∨
        (st.2.1 ∈ ws ∧ ∃ q', st.1 = some q' ∧ ltInf q' bm = true)) ∧
       (∀ w ∈ ws, ∀ q, smaMape data w = some q →
         ∃ qb, st.1 = some qb ∧ qb ≤ q) ∧
       (∀ w ∈ ws, w < st.2.1 → ∀ q, smaMape data w = some q →
         ∃ qb, st.1 = some qb ∧ qb < q)) := by
  intro ws
  induction ws with
  | nil =>
    intro bm bw bp st _ hbp hbm _ hrun
    subst hrun
    exact ⟨hbp, (by cases hbm with
      | inl h => exact Or.inl h
      | inr h => exact Or.inr h), leInfP_refl bm, Or.inl rfl,
      by simp, by simp⟩
  | cons w rest ih =>
    intro bm bw bp st hpw hbp hbm hord hrun
    have hw_rest : ∀ w' ∈ rest, w < w' := (List.pairwise_cons.1 hpw).1
    have hpw_rest : List.Pairwise (· < ·) rest := (List.pairwise_cons.1 hpw).2
    cases hmape : smaMape data w with
    | none =>
      simp only [smaSearch, hmape] at hrun
      have hord' : bm = none ∨ ∀ w' ∈ rest, bw < w' := by
        cases hord with
        | inl h => exact Or.inl h
        | inr h => exact Or.inr fun w' hw' => h w' (List.mem_cons_of_mem w hw')
      obtain ⟨c1, c2, c3, c4, c5, c6⟩ :=
        ih bm bw bp st hpw_rest hbp hbm hord' hrun
      refine ⟨c1, c2, c3, ?_, ?_, ?_⟩
      · cases c4 with
        | inl h => exact Or.inl h
        | inr h => exact Or.inr ⟨List.mem_cons_of_mem w h.1, h.2⟩
      · intro w' hw' q hq
        rcases List.mem_cons.1 hw' with h | h
        · subst h; rw [hmape] at hq; exact absurd hq (by simp)
        · exact c5 w' h q hq
      · intro w' hw' hlt q hq
        rcases List.mem_cons.1 hw' with h | h
        · subst h; rw [hmape] at hq; exact absurd hq (by simp)
        · exact c6 w' h hlt q hq
    | some q =>
      cases hlt : ltInf q bm with
      | true =>
        simp only [smaSearch, hmape, hlt, if_true] at hrun
        obtain ⟨c1, c2, c3, c4, c5, c6⟩ :=
          ih (some q) w (smaPredictions data w) st hpw_rest rfl
            (Or.inr hmape.symm) (Or.inr hw_rest) hrun
        refine ⟨c1, c2, ?_, ?_, ?_, ?_⟩
        · -- leInfP st.1 bm, via st.1 ≤ q and q < bm
          obtain ⟨qb, hqb, hle⟩ := leInfP_some c3
          rw [hqb]
          cases bm with
          | none => trivial
          | some b =>
            simp only [ltInf, decide_eq_true_eq] at hlt
            show qb ≤ b
            linarith
        · -- chosen is w or improves on (some q), hence on bm
          cases c4 with
          | inl h =>
            refine Or.inr ⟨?_, q, ?_, hlt⟩
            · rw [h]; exact List.mem_cons_self w rest
            · rw [h]
          | inr h =>
            obtain ⟨hmem, q', hq', hlt'⟩ := h
            exact Or.inr ⟨List.mem_cons_of_mem w hmem, q', hq',
              ltInf_trans hlt' hlt⟩
        · intro w' hw' q0 hq0
          rcases List.mem_cons.1 hw' with h | h
          · subst h
            rw [hmape] at hq0
            have hqq : q = q0 := by simpa using hq0
            subst hqq
            exact leInfP_some c3
          · exact c5 w' h q0 hq0
        · intro w' hw' hltw q0 hq0
          rcases List.mem_cons.1 hw' with h | h
          · subst h
            rw [hmape] at hq0
            have hqq : q = q0 := by simpa using hq0
            subst hqq
            cases c4 with
            | inl hs => rw [hs] at hltw; exact absurd hltw (lt_irrefl w')
            | inr hs =>
              obtain ⟨_, q', hq', hlt'⟩ := hs
              simp only [ltInf, decide_eq_true_eq] at hlt'
              exact ⟨q', hq', hlt'⟩
          · exact c6 w' h hltw q0 hq0
      | false =>
        simp only [smaSearch, hmape, hlt, if_false] at hrun
        obtain ⟨b, hb, hble⟩ := ltInf_false hlt
        have hord' : bm = none ∨ ∀ w' ∈ rest, bw < w' := by
          cases hord with
          | inl h => exact Or.inl h
          | inr h => exact Or.inr fun w' hw' => h w' (List.mem_cons_of_mem w hw')
        obtain ⟨c1, c2, c3, c4, c5, c6⟩ :=
          ih bm bw bp st hpw_rest hbp hbm hord' hrun
        refine ⟨c1, c2, c3, ?_, ?_, ?_⟩
        · cases c4 with
          | inl h => exact Or.inl h
          | inr h => exact Or.inr ⟨List.mem_cons_of_mem w h.1, h.2⟩
        · intro w' hw' q0 hq0
          rcases List.mem_cons.1 hw' with h | h
          · subst h
            rw [hmape] at hq0
            have hqq : q = q0 := by simpa using hq0
            subst hqq
            rw [hb] at c3
            obtain ⟨qb, hqb, hle⟩ := leInfP_some c3
            exact ⟨qb, hqb, le_trans hle hble⟩
          · exact c5 w' h q0 hq0
        · intro w' hw' hltw q0 hq0
          rcases List.mem_cons.1 hw' with h | h
          · subst h
            rw [hmape] at hq0
            have hqq : q = q0 := by simpa using hq0
            subst hqq
            cases c4 with
            | inl hs =>
              rw [hs] at hltw
              cases hord with
              | inl hn => rw [hn] at hb; exact absurd hb (by simp)
              | inr hlt2 =>
                exact absurd hltw (not_lt.2 (le_of_lt
                  (hlt2 w' (List.mem_cons_self w' rest))))
            | inr hs =>
              obtain ⟨_, q', hq', hlt'⟩ := hs
              rw [hb] at hlt'
              simp only [ltInf, decide_eq_true_eq] at hlt'
              exact ⟨q', hq', lt_of_lt_of_le hlt' hble⟩
          · exact c6 w' h hltw q0 hq0

lemma smaPredictions_length (data : List ℚ) (w : ℕ) :
    (smaPredictions data w).length = data.length := by
  simp [smaPredictions]

/-- C6: the moving-average fitter always returns a result; the returned
window lies in 3..12, its predictions and metrics are those of that window,
the chosen window's MAPE is defined and minimal among all windows with a
defined MAPE — with the first window scanned winning ties — and when no
window has a defined MAPE the default window 3 is returned with its
predictions. -/
theorem sma_model_spec (data : List ℚ) :
    ∃ res : SMAResult, sma_model data 3 = some res ∧
      res.predictions = smaPredictions data res.window ∧
      res.metrics = metricsOf (toNp data) (smaPredictions data res.window) ∧
      3 ≤ res.window ∧ res.window ≤ 12 ∧
      (∀ w, 3 ≤ w → w ≤ 12 → ∀ q, smaMape data w = some q →
        ∃ qb, smaMape data res.window = some qb ∧ qb ≤ q ∧
          (w < res.window → qb < q)) ∧
      ((∀ w, 3 ≤ w → w ≤ 12 → smaMape data w = none) → res.window = 3) := by
  have hpw : List.Pairwise (· < ·) windowCandidates := by decide
  cases hsea : smaSearch data windowCandidates (none, 3, smaPredictions data 3) with
  | mk bm rest =>
  cases rest with
  | mk bw bp =>
  obtain ⟨c1, c2, c3, c4, c5, c6⟩ :=
    smaSearch_spec data windowCandidates none 3 (smaPredictions data 3)
      (bm, bw, bp) hpw rfl (Or.inl rfl) (Or.inl rfl) hsea
  dsimp only at c1 c2 c3 c4 c5 c6
  have hlen : (toNp data).length = bp.length := by
    rw [c1, smaPredictions_length]
    simp [toNp]
  have hcm : calculate_metrics (toNp data) bp =
      Except.ok (metricsOf (toNp data) bp) := by
    simp [calculate_metrics, hlen]
  have hmodel : sma_model data 3 = some ⟨bp, metricsOf (toNp data) bp, bw⟩ := by
    simp only [sma_model, hsea, hcm]
  have hbounds : 3 ≤ bw ∧ bw ≤ 12 := by
    cases c4 with
    | inl h =>
      have hb3 : bw = 3 := by
        have := congrArg (fun t : Option ℚ × ℕ × List NpFloat => t.2.1) h
        simpa using this
      omega
    | inr h =>
      have hmem : bw ∈ windowCandidates := h.1
      rw [windowCandidates, List.mem_range'_1] at hmem
      omega
  refine ⟨⟨bp, metricsOf (toNp data) bp, bw⟩, hmodel, c1, ?_, hbounds.1,
    hbounds.2, ?_, ?_⟩
  · show metricsOf (toNp data) bp = metricsOf (toNp data) (smaPredictions data bw)
    rw [c1]
  · intro w h3 h12 q hq
    have hwmem : w ∈ windowCandidates := by
      rw [windowCandidates, List.mem_range'_1]
      omega
    obtain ⟨qb, hqb, hle⟩ := c5 w hwmem q hq
    have hbm_eq : smaMape data bw = some qb := by
      cases c2 with
      | inl h => rw [h] at hqb; exact absurd hqb (by simp)
      | inr h => rw [← h]; exact hqb
    refine ⟨qb, hbm_eq, hle, ?_⟩
    intro hltw
    obtain ⟨qb', hqb', hlt'⟩ := c6 w hwmem hltw q hq
    have heq : qb' = qb := by
      rw [hqb] at hqb'
      have := Option.some.inj hqb'
      exact this.symm
    rw [← heq]
    exact hlt'
  · intro hall
    have hstall := smaSearch_allnone data windowCandidates
      (none, 3, smaPredictions data 3)
      (fun w hw => by
        rw [windowCandidates, List.mem_range'_1] at hw
        exact hall w hw.1 (by omega))
    rw [hstall] at hsea
    have := congrArg (fun t : Option ℚ × ℕ × List NpFloat => t.2.1) hsea
    show bw = 3
    simpa using this.symm

/-- Witness for C6 at a concrete series (the one used for C3). -/
theorem sma_model_spec_witness :
    ∃ res : SMAResult, sma_model [2, 5, 2, 8, 8, 8] 3 = some res ∧
      res.predictions = smaPredictions [2, 5, 2, 8, 8, 8] res.window ∧
      res.metrics = metricsOf (toNp [2, 5, 2, 8, 8, 8])
        (smaPredictions [2, 5, 2, 8, 8, 8] res.window) ∧
      3 ≤ res.window ∧ res.window ≤ 12 ∧
      (∀ w, 3 ≤ w → w ≤ 12 → ∀ q, smaMape [2, 5, 2, 8, 8, 8] w = some q →
        ∃ qb, smaMape [2, 5, 2, 8, 8, 8] res.window = some qb ∧ qb ≤ q ∧
          (w < res.window → qb < q)) ∧
      ((∀ w, 3 ≤ w → w ≤ 12 → smaMape [2, 5, 2, 8, 8, 8] w = none) →
        res.window = 3) :=
  sma_model_spec [2, 5, 2, 8, 8, 8]

/-- Witness for the C8 amended theorem at a concrete input. -/
theorem rmse_sq_mse_amended_witness :
    (rmseRaw (toNp [1, 2]) (toNp [2, 4])) ^ 2 =
      ((mseRawOf (validPairs (toNp [1, 2]) (toNp [2, 4])) : ℚ) : ℝ) ∧
    0 ≤ rmseRaw (toNp [1, 2]) (toNp [2, 4]) ∧
    (∀ q, (metricsOf (toNp [1, 2]) (toNp [2, 4])).mae = some q → 0 ≤ q) ∧
    (∀ q, (metricsOf (toNp [1, 2]) (toNp [2, 4])).mse = some q → 0 ≤ q) ∧
    (∀ q, (metricsOf (toNp [1, 2]) (toNp [2, 4])).mape = some q → 0 ≤ q) ∧
    (∀ r, rmseReported (toNp [1, 2]) (toNp [2, 4]) = some r → 0 ≤ r) :=
  rmse_sq_mse_amended (toNp [1, 2]) (toNp [2, 4])

end
